import Mathlib

/-!
# Verification of the Jobify skill-extraction core

A shallow embedding of the Jobify repository's Python core
(`ml/src/utils/encoder.py`, `ml/src/utils/dataset.py`,
`ml/src/utils/evaluation.py`, `ml/src/utils/input_to_text.py`,
`ml/src/main.py`), with theorems settling the specification's claims.

Text is modelled as a list of Unicode code points (`List Nat`); machine
strings are injected through `str2l`.  External collaborators (the
HuggingFace tokenizer, the TensorFlow model, file IO, pypandoc and
pdfplumber) are not embedded: their *outputs* (the word-ids map, the
logits argmax, the routing decision) are the inputs of the embedded
functions, exactly as the spec's data model describes them.
-/

set_option autoImplicit false
set_option synthInstance.maxSize 512

namespace Jobify

/-- Inject a Lean string literal as a list of code points. -/
def str2l (s : String) : List Nat := s.toList.map Char.toNat

/-! ## `input_to_text.py` : `clean_cv_text`

`clean_cv_text` applies, in order: `str.lower()`, `re.sub(r'\n+','\n')`,
`re.sub(r'\s+',' ')`, `re.sub(r'page \d+ of \d+','')`,
`re.sub(r'[•●▪■–—]',' ')`, `str.strip()`.  The embedding models the
ASCII fragment of Python's case folding, whitespace classes and digit
class (the repository's inputs are CV text; the non-ASCII characters
the code manipulates are exactly the six bullet/dash glyphs, which have
no case and are not whitespace). -/

/-- ASCII model of Python `str.lower` on one code point. -/
def lowerChar (c : Nat) : Nat := if 65 ≤ c ∧ c ≤ 90 then c + 32 else c

/-- Model of Python `str.lower`. -/
def lowerN (l : List Nat) : List Nat := l.map lowerChar

/-- ASCII model of the regex class `\s` (also Python `str.strip`'s
whitespace set): space, tab, newline, carriage return, vertical tab,
form feed. -/
def isSpaceCh (c : Nat) : Bool :=
  c = 32 || c = 9 || c = 10 || c = 13 || c = 11 || c = 12

/-- Model of the regex class `\d`. -/
def isDigitCh (c : Nat) : Bool := 48 ≤ c && c ≤ 57

/-- `re.sub(r'\n+', '\n', text)`: each maximal run of newlines becomes a
single newline.  The flag records whether the previous character was a
newline (i.e. whether we are inside a run). -/
def collapseNLAux : Bool → List Nat → List Nat
  | _, [] => []
  | prevNL, c :: cs =>
    if c = 10 then
      if prevNL then collapseNLAux true cs else 10 :: collapseNLAux true cs
    else c :: collapseNLAux false cs

def collapseNL (l : List Nat) : List Nat := collapseNLAux false l

/-- `re.sub(r'\s+', ' ', text)`: each maximal run of whitespace becomes a
single space. -/
def collapseWsAux : Bool → List Nat → List Nat
  | _, [] => []
  | prevWs, c :: cs =>
    if isSpaceCh c then
      if prevWs then collapseWsAux true cs else 32 :: collapseWsAux true cs
    else c :: collapseWsAux false cs

def collapseWs (l : List Nat) : List Nat := collapseWsAux false l

/-- Consume the literal `pat` at the head of the input, returning the rest. -/
def dropLit : List Nat → List Nat → Option (List Nat)
  | [], l => some l
  | _ :: _, [] => none
  | p :: ps, c :: cs => if c = p then dropLit ps cs else none

/-- Consume `\d+` (one or more digits, maximal munch) at the head. -/
def dropDigits1 : List Nat → Option (List Nat)
  | [] => none
  | c :: cs =>
    if isDigitCh c then some (cs.dropWhile (fun d => isDigitCh d)) else none

/-- Match the regex `page \d+ of \d+` at the start of the input,
returning the remainder after the match.  (For this pattern the greedy
`\d+` is equivalent to maximal munch: the character after each digit run
must be a space.) -/
def matchFooterAt (l : List Nat) : Option (List Nat) :=
  match dropLit (str2l "page ") l with
  | none => none
  | some l1 =>
    match dropDigits1 l1 with
    | none => none
    | some l2 =>
      match dropLit (str2l " of ") l2 with
      | none => none
      | some l3 => dropDigits1 l3

/-- `re.sub(r'page \d+ of \d+', '', text)`: left-to-right scan, delete
each non-overlapping leftmost match.  Fuel-indexed; each step consumes
at least one character, so fuel `l.length` never runs out. -/
def removeFooterF : Nat → List Nat → List Nat
  | 0, l => l
  | _ + 1, [] => []
  | fuel + 1, c :: cs =>
    match matchFooterAt (c :: cs) with
    | some rest => removeFooterF fuel rest
    | none => c :: removeFooterF fuel cs

def removeFooter (l : List Nat) : List Nat := removeFooterF l.length l

/-- The six glyphs of the class `[•●▪■–—]` as code points. -/
def bullets : List Nat := [8226, 9679, 9642, 9632, 8211, 8212]

/-- `re.sub(r'[•●▪■–—]', ' ', text)`. -/
def removeBullets (l : List Nat) : List Nat :=
  l.map (fun c => if c ∈ bullets then 32 else c)

/-- Remove trailing whitespace (the right half of `str.strip`). -/
def dropTrailWs : List Nat → List Nat
  | [] => []
  | c :: cs =>
    let r := dropTrailWs cs
    if r = [] && isSpaceCh c then [] else c :: r

/-- Python `str.strip()`. -/
def stripWs (l : List Nat) : List Nat :=
  dropTrailWs (l.dropWhile (fun c => isSpaceCh c))

/-- Embedding of `clean_cv_text` (`input_to_text.py`, lines 4-21):
lowercase, collapse newline runs, collapse whitespace runs, delete
`page N of M` footers, replace bullet/dash glyphs by spaces, strip. -/
def clean_cv_text (l : List Nat) : List Nat :=
  stripWs (removeBullets (removeFooter (collapseWs (collapseNL (lowerN l)))))

/-- Does the text contain two adjacent whitespace characters? -/
def hasWsPair : List Nat → Bool
  | c1 :: c2 :: rest => (isSpaceCh c1 && isSpaceCh c2) || hasWsPair (c2 :: rest)
  | _ => false

/-- Is `pat` a leading segment of the text? -/
def leadEq : List Nat → List Nat → Bool
  | [], _ => true
  | _ :: _, [] => false
  | p :: ps, c :: cs => p == c && leadEq ps cs

/-- Does the text contain `pat` as a contiguous subsequence? -/
def containsSeq (pat : List Nat) : List Nat → Bool
  | [] => leadEq pat []
  | c :: cs => leadEq pat (c :: cs) || containsSeq pat cs

/-! ## `input_to_text.py` : `extract_text` -/

/-- The basename of a path: everything after the last `/` (47). -/
def basenameL (p : List Nat) : List Nat :=
  (p.reverse.takeWhile (fun c => c ≠ 47)).reverse

/-- Model of `os.path.splitext(p)[1]`: the suffix of the basename from
its last dot (46), unless the basename has no dot or all characters
before that dot are themselves dots (so `.txt` as a whole filename has
no extension, matching CPython's `genericpath._splitext`). -/
def splitextExt (p : List Nat) : List Nat :=
  let b := basenameL p
  let tail := b.reverse.takeWhile (fun c => c ≠ 46)
  if tail.length = b.length then []
  else if (b.take (b.length - tail.length - 1)).all (fun c => c = 46) then []
  else b.drop (b.length - tail.length - 1)

/-- The handler `extract_text` routes to.  Reading the file and
converting it to text (pypandoc / pdfplumber / `open`) are external
collaborators; the routing decision is the embedded observable. -/
inductive FileKind where
  | docx
  | pdf
  | txt
deriving DecidableEq

/-- The three supported extensions, lowercase. -/
def supportedExts : List (List Nat) := [str2l ".docx", str2l ".pdf", str2l ".txt"]

/-- Embedding of `extract_text` (`input_to_text.py`, lines 41-55):
`type = os.path.splitext(filepath)[1].lower()`, then dispatch on
`.docx` / `.pdf` / `.txt`, else
`raise ValueError(f"Unsupported '{type}' file type.")`.
`Except.error` carries the message of the raised `ValueError`. -/
def extract_text (p : List Nat) : Except (List Nat) FileKind :=
  let t := lowerN (splitextExt p)
  if t = str2l ".docx" then Except.ok FileKind.docx
  else if t = str2l ".pdf" then Except.ok FileKind.pdf
  else if t = str2l ".txt" then Except.ok FileKind.txt
  else Except.error (str2l "Unsupported '" ++ t ++ str2l "' file type.")

/-! ## `main.py` : `run_main_pipeline` and the `extract_skills` call -/

/-- The parameter list of `extract_skills` as defined in
`services/skills_extraction.py`, line 14: `def extract_skills(input, pipeline)`. -/
def extract_skills_params : List String := ["input", "pipeline"]

/-- Model of CPython call binding for a call with `npos` positional
arguments and keyword arguments `kws` (pairwise distinct at this call
site) against parameter list `params` (no defaults, no `*`/`**`):
binding succeeds iff there are not more positional arguments than
parameters, every keyword names a parameter not already bound
positionally, and every remaining parameter is bound by a keyword.
Otherwise the call raises `TypeError`. -/
def callBindOk (params : List String) (npos : Nat) (kws : List String) : Bool :=
  decide (npos ≤ params.length)
    && kws.all (fun k => params.contains k && !((params.take npos).contains k))
    && (params.drop npos).all (fun q => kws.contains q)

/-- Observable outcome of one `run_main_pipeline` call. -/
inductive PipeOutcome where
  /-- `extract_text` raised its unsupported-file-type `ValueError`. -/
  | unsupported (msg : List Nat)
  /-- A call in the pipeline raised `TypeError` (bad argument binding). -/
  | typeErr
  /-- The enumerated `i. skill: ..., confidence: ...` lines were printed. -/
  | printedSkills
deriving DecidableEq

/-- Embedding of `run_main_pipeline` (`main.py`, lines 6-29): convert
the file to text via `extract_text` (propagating its `ValueError`),
load the model (external), then evaluate the call
`extract_skills(input, model=skillner, tokenizer=tokenizer)` against
`def extract_skills(input, pipeline)`; only if that call binds do the
enumerated skill lines get printed. -/
def run_main_pipeline (filepath : List Nat) : PipeOutcome :=
  match extract_text filepath with
  | Except.error m => PipeOutcome.unsupported m
  | Except.ok _ =>
    if callBindOk extract_skills_params 1 ["model", "tokenizer"] then
      PipeOutcome.printedSkills
    else PipeOutcome.typeErr

/-! ## `encoder.py` : `tokenize_and_align_labels`

The external tokenizer produces the sub-word ids and the word-ids map
(`tokenized.word_ids()`); the embedded function consumes the word-ids
map (`List (Option Nat)`, `none` for special tokens) and the word-level
tag list, and produces the `labels` and `label_mask` lists, exactly the
loop of lines 13-26.  `tags[word_id]` with an out-of-range index raises
`IndexError` in Python; the embedding returns `none` there. -/

/-- The loop of `tokenize_and_align_labels` with explicit
`prev_word_id` state: for each `word_id`, emit `(0, 0)` for a special
token, `(tags[word_id], 1)` when `word_id != prev_word_id`, `(0, 0)`
otherwise, then set `prev_word_id := word_id`. -/
def alignLoop (tags : List Nat) (prev : Option Nat) :
    List (Option Nat) → Option (List Nat × List Nat)
  | [] => some ([], [])
  | w :: ws =>
    match w with
    | none =>
      match alignLoop tags none ws with
      | none => none
      | some (ls, ms) => some (0 :: ls, 0 :: ms)
    | some wi =>
      if prev = some wi then
        match alignLoop tags (some wi) ws with
        | none => none
        | some (ls, ms) => some (0 :: ls, 0 :: ms)
      else
        match tags[wi]? with
        | none => none
        | some t =>
          match alignLoop tags (some wi) ws with
          | none => none
          | some (ls, ms) => some (t :: ls, 1 :: ms)

/-- Embedding of `tokenize_and_align_labels` (`encoder.py`, lines 3-31):
the label/mask construction from the tokenizer's word-ids map, with
`prev_word_id` initialized to `None`.  Returns the `(labels, label_mask)`
pair, or `none` when Python would raise `IndexError`. -/
def tokenize_and_align_labels (tags : List Nat) (word_ids : List (Option Nat)) :
    Option (List Nat × List Nat) :=
  alignLoop tags none word_ids

/-- The originating word index of the position preceding `p`: the
`prev_word_id` state the loop holds when it processes position `p`
(`prev0` is the initial state, `none` in `tokenize_and_align_labels`). -/
def prevAt (prev0 : Option Nat) (ws : List (Option Nat)) (p : Nat) : Option Nat :=
  if p = 0 then prev0 else ws.getD (p - 1) none

/-- Index of the first position carrying `some w` (length of the list
when `some w` does not occur). -/
def firstIdx (w : Nat) : List (Option Nat) → Nat
  | [] => 0
  | x :: xs => if x = some w then 0 else firstIdx w xs + 1

/-- The per-position specification of the aligner at position `p` of
the word-ids map `ws`, for output lists `ls`/`ms`, with initial
previous-word state `prev0`: a special token yields `(0, 0)`; the first
sub-word of a new word (originating index differing from the previous
position's) yields the word's tag and mask 1; a continuation sub-word
yields `(0, 0)`. -/
def posRule (tags : List Nat) (prev0 : Option Nat) (ws : List (Option Nat))
    (ls ms : List Nat) (p : Nat) : Prop :=
  (ws.getD p none = none → ls.getD p 0 = 0 ∧ ms.getD p 0 = 0)
  ∧ (∀ w, ws.getD p none = some w → prevAt prev0 ws p = some w →
      ls.getD p 0 = 0 ∧ ms.getD p 0 = 0)
  ∧ (∀ w, ws.getD p none = some w → prevAt prev0 ws p ≠ some w →
      ls.getD p 0 = tags.getD w 0 ∧ ms.getD p 0 = 1)

/-! ## `dataset.py` : `make_dataset` -/

/-- One aligned encoding, the four parallel sequences of
`tokenize_and_align_labels`'s output dict (`input_ids`,
`attention_mask`, `labels`, `label_mask`).  The loss mask's Python
floats 0.0/1.0 are modelled as the naturals 0/1. -/
structure Enc where
  input_ids : List Nat
  attention_mask : List Nat
  labels : List Nat
  label_mask : List Nat
deriving DecidableEq

def emptyEnc : Enc := ⟨[], [], [], []⟩

/-- Group a list into consecutive chunks of size `B`, fuel-indexed.
Each step removes at least one element, so fuel `l.length` suffices
whenever `1 ≤ B`. -/
def chunksF {α : Type} : Nat → Nat → List α → List (List α)
  | 0, _, [] => []
  | 0, _, x :: xs => [x :: xs]
  | _ + 1, _, [] => []
  | fuel + 1, B, x :: xs => (x :: xs).take B :: chunksF fuel B ((x :: xs).drop B)

/-- The batching of `tf.data.Dataset.padded_batch`: consecutive groups
of `B` encodings in input order, the last group possibly smaller. -/
def chunks {α : Type} (B : Nat) (l : List α) : List (List α) :=
  chunksF l.length B l

/-- Pad a sequence on the right with `0` up to length `L`
(`padding_values` are `0` for input ids, attention mask and labels and
`0.0` for the loss mask). -/
def padTo (L : Nat) (l : List Nat) : List Nat :=
  l ++ List.replicate (L - l.length) 0

/-- The maximum length of component `f` over a chunk (the `[None]`
padded shape: each component is padded to its own maximum within the
batch). -/
def maxLenBy (f : Enc → List Nat) (chunk : List Enc) : Nat :=
  (chunk.map (fun e => (f e).length)).foldr max 0

/-- One padded batch: the four matrices `padded_batch` produces. -/
structure Batch where
  input_ids : List (List Nat)
  attention_mask : List (List Nat)
  labels : List (List Nat)
  label_mask : List (List Nat)
deriving DecidableEq

def emptyBatch : Batch := ⟨[], [], [], []⟩

/-- Pad one chunk: every component sequence is padded with zeros to
that component's maximum length within the chunk. -/
def padBatch (chunk : List Enc) : Batch where
  input_ids := chunk.map (fun e => padTo (maxLenBy Enc.input_ids chunk) e.input_ids)
  attention_mask :=
    chunk.map (fun e => padTo (maxLenBy Enc.attention_mask chunk) e.attention_mask)
  labels := chunk.map (fun e => padTo (maxLenBy Enc.labels chunk) e.labels)
  label_mask := chunk.map (fun e => padTo (maxLenBy Enc.label_mask chunk) e.label_mask)

/-- Embedding of `make_dataset` (`dataset.py`, lines 3-15): group the
encodings into batches of `batch_size` in input order and pad each
batch (`padded_batch` with `padding_values` 0 / 0 / 0 / 0.0;
`prefetch` is a performance hint with no semantic content). -/
def make_dataset (encodings : List Enc) (batch_size : Nat) : List Batch :=
  (chunks batch_size encodings).map padBatch

/-- Specification predicate for one padded row: `pr` has length `L`,
agrees with `orig` on `orig`'s positions, and is `0` (the padding value)
on every padded position. -/
def paddedOk (L : Nat) (orig pr : List Nat) : Prop :=
  pr.length = L
  ∧ (∀ j d, j < orig.length → pr.getD j d = orig.getD j d)
  ∧ (∀ j d, orig.length ≤ j → j < L → pr.getD j d = 0)

/-- Specification of the Batch Dataset Builder on `encs` with batch
size `B`: the chunks concatenate back to the input (each encoding in
exactly one batch, input order preserved); there are `⌈N / B⌉` batches;
every batch but possibly the last has exactly `B` rows; and within each
batch every row of each of the four components is its encoding's
sequence padded with zeros to the batch's maximum length. -/
def makeDatasetSpec (encs : List Enc) (B : Nat) : Prop :=
  (chunks B encs).flatten = encs
  ∧ (make_dataset encs B).length = (encs.length + B - 1) / B
  ∧ (∀ k, k + 1 < (make_dataset encs B).length →
      ((make_dataset encs B).getD k emptyBatch).input_ids.length = B)
  ∧ ∀ k, k < (make_dataset encs B).length →
      ∀ i, i < ((chunks B encs).getD k []).length →
        paddedOk (maxLenBy Enc.input_ids ((chunks B encs).getD k []))
            (((chunks B encs).getD k []).getD i emptyEnc).input_ids
            (((make_dataset encs B).getD k emptyBatch).input_ids.getD i [])
        ∧ paddedOk (maxLenBy Enc.input_ids ((chunks B encs).getD k []))
            (((chunks B encs).getD k []).getD i emptyEnc).attention_mask
            (((make_dataset encs B).getD k emptyBatch).attention_mask.getD i [])
        ∧ paddedOk (maxLenBy Enc.input_ids ((chunks B encs).getD k []))
            (((chunks B encs).getD k []).getD i emptyEnc).labels
            (((make_dataset encs B).getD k emptyBatch).labels.getD i [])
        ∧ paddedOk (maxLenBy Enc.input_ids ((chunks B encs).getD k []))
            (((chunks B encs).getD k []).getD i emptyEnc).label_mask
            (((make_dataset encs B).getD k emptyBatch).label_mask.getD i [])

/-! ## `evaluation.py` : `get_seqeval_input`

The model call and `tf.argmax` are external: one row of a batch is the
triple of the argmax prediction ids, the true label ids and the loss
mask for one example, all of the batch's padded width. -/

/-- One example's slice of a batch, after `tf.argmax`/`.numpy()`. -/
structure Row where
  preds : List Nat
  labels : List Nat
  weights : List Nat
deriving DecidableEq

/-- The inner `for j` loop of `get_seqeval_input` (lines 22-28): walk
the positions in order, skip (`continue`) those whose weight is 0, and
translate both ids through `id2label` at the kept positions. -/
def perExample {α : Type} (id2label : Nat → α) :
    List Nat → List Nat → List Nat → List α × List α
  | p :: ps, l :: ls, w :: ws =>
    let rest := perExample id2label ps ls ws
    if w = 0 then rest else (id2label p :: rest.1, id2label l :: rest.2)
  | _, _, _ => ([], [])

/-- The `for i` loop over a batch's rows (lines 19-34): build each
example's `(preds, labels)` and append it to the two output collections
— the source appends each pair twice (lines 30-31 and again 33-34),
which this embedding reproduces. -/
def procRows {α : Type} (id2label : Nat → α) :
    List Row → List (List α) × List (List α)
  | [] => ([], [])
  | r :: rs =>
    let pl := perExample id2label r.preds r.labels r.weights
    let rest := procRows id2label rs
    (pl.1 :: pl.1 :: rest.1, pl.2 :: pl.2 :: rest.2)

/-- Embedding of `get_seqeval_input` (`evaluation.py`, lines 5-36):
fold the per-batch row processing over the batch sequence, in order. -/
def get_seqeval_input {α : Type} (id2label : Nat → α) :
    List (List Row) → List (List α) × List (List α)
  | [] => ([], [])
  | b :: bs =>
    let here := procRows id2label b
    let rest := get_seqeval_input id2label bs
    (here.1 ++ rest.1, here.2 ++ rest.2)

/-! ## Lemmas: evaluation aggregator -/

lemma procRows_length {α : Type} (id2label : Nat → α) (rs : List Row) :
    (procRows id2label rs).1.length = 2 * rs.length
    ∧ (procRows id2label rs).2.length = 2 * rs.length := by
  induction rs with
  | nil => simp [procRows]
  | cons r rs ih =>
    simp only [procRows, List.length_cons]
    omega

/-! ## Claim theorems: C3 and C4 -/

/-- C3: refuted on the code (the spec flags this as the known defect).
`get_seqeval_input` appends each example's `(preds, labels)` pair to
the output collections twice (`evaluation.py` lines 30-31 and again
33-34), so the two output collections have `2·N` entries for `N` input
examples — not one entry per example as the claim requires. -/
theorem get_seqeval_appends_twice {α : Type} (id2label : Nat → α)
    (batches : List (List Row)) :
    (get_seqeval_input id2label batches).1.length = 2 * (batches.map List.length).sum
    ∧ (get_seqeval_input id2label batches).2.length
        = 2 * (batches.map List.length).sum := by
  induction batches with
  | nil => simp [get_seqeval_input]
  | cons b bs ih =>
    have hb := procRows_length id2label b
    simp only [get_seqeval_input, List.length_append, List.map_cons, List.sum_cons]
    omega

/-- Witness for C3 at a concrete batch sequence: one batch with one
example yields two entries in each output collection. -/
theorem get_seqeval_appends_twice_w :
    (get_seqeval_input (fun n => [n]) [[⟨[1, 2], [1, 0], [1, 1]⟩]]).1.length
        = 2 * (([[⟨[1, 2], [1, 0], [1, 1]⟩]] : List (List Row)).map List.length).sum
    ∧ (get_seqeval_input (fun n => [n]) [[⟨[1, 2], [1, 0], [1, 1]⟩]]).2.length
        = 2 * (([[⟨[1, 2], [1, 0], [1, 1]⟩]] : List (List Row)).map List.length).sum :=
  get_seqeval_appends_twice (fun n => [n]) [[⟨[1, 2], [1, 0], [1, 1]⟩]]

/-- C4: confirmed.  For one example (a row of a batch, all three
sequences of the batch's padded width, the loss mask 0/1-valued), the
inner loop of `get_seqeval_input` keeps exactly the positions whose
loss mask is 1, in position order, translating both ids through
`id2label`; mask-0 positions are skipped, and the two produced lists
have equal length. -/
theorem perExample_filter_spec {α : Type} (id2label : Nat → α)
    (ws ps ls : List Nat) (hp : ps.length = ws.length) (hl : ls.length = ws.length)
    (hw : ∀ w ∈ ws, w = 0 ∨ w = 1) :
    perExample id2label ps ls ws
      = ((((ps.zip ls).zip ws).filter (fun x => x.2 == 1)).map (fun x => id2label x.1.1),
         (((ps.zip ls).zip ws).filter (fun x => x.2 == 1)).map (fun x => id2label x.1.2))
    ∧ (perExample id2label ps ls ws).1.length
        = (perExample id2label ps ls ws).2.length := by
  have hmain : perExample id2label ps ls ws
      = ((((ps.zip ls).zip ws).filter (fun x => x.2 == 1)).map (fun x => id2label x.1.1),
         (((ps.zip ls).zip ws).filter (fun x => x.2 == 1)).map (fun x => id2label x.1.2)) := by
    induction ws generalizing ps ls with
    | nil =>
      have hps : ps = [] := List.eq_nil_of_length_eq_zero (by simpa using hp)
      have hls : ls = [] := List.eq_nil_of_length_eq_zero (by simpa using hl)
      subst hps; subst hls
      simp [perExample]
    | cons w ws ih =>
      cases ps with
      | nil => simp at hp
      | cons p ps =>
        cases ls with
        | nil => simp at hl
        | cons l ls =>
          have hrec := ih ps ls (by simpa using hp) (by simpa using hl)
            (fun x hx => hw x (List.mem_cons_of_mem _ hx))
          rcases hw w (List.mem_cons_self _ _) with h0 | h1
          · subst h0
            simp [perExample, hrec]
          · subst h1
            simp [perExample, hrec]
  exact ⟨hmain, by rw [hmain]; simp⟩

/-- Witness for C4 at a concrete row. -/
theorem perExample_filter_spec_w :
    (([3, 4, 5] : List Nat).length = ([1, 0, 1] : List Nat).length)
    ∧ (([1, 2, 0] : List Nat).length = ([1, 0, 1] : List Nat).length)
    ∧ (∀ w ∈ ([1, 0, 1] : List Nat), w = 0 ∨ w = 1)
    ∧ (perExample (fun n => [n]) [3, 4, 5] [1, 2, 0] [1, 0, 1]
        = (((([3, 4, 5].zip [1, 2, 0]).zip [1, 0, 1]).filter
              (fun x => x.2 == 1)).map (fun x => [x.1.1]),
           ((([3, 4, 5].zip [1, 2, 0]).zip [1, 0, 1]).filter
              (fun x => x.2 == 1)).map (fun x => [x.1.2]))
       ∧ (perExample (fun n => [n]) [3, 4, 5] [1, 2, 0] [1, 0, 1]).1.length
          = (perExample (fun n => [n]) [3, 4, 5] [1, 2, 0] [1, 0, 1]).2.length) :=
  ⟨by decide, by decide, by decide,
    perExample_filter_spec (fun n => [n]) [1, 0, 1] [3, 4, 5] [1, 2, 0]
      (by decide) (by decide) (by decide)⟩

/-! ## Lemmas: extension dispatch -/

lemma extract_text_error_iff (p : List Nat) :
    (∃ m, extract_text p = Except.error m) ↔ lowerN (splitextExt p) ∉ supportedExts := by
  simp only [extract_text]
  split_ifs with h1 h2 h3
  · simp [supportedExts, h1]
  · simp [supportedExts, h2]
  · simp [supportedExts, h3]
  · simp [supportedExts, h1, h2, h3]

/-! ## Claim theorems: C8, C10, C6 -/

/-- C8: confirmed.  `extract_text` raises its unsupported-file-type
`ValueError` exactly for the paths whose (case-normalized, as the code
compares them) extension is outside `{.docx, .pdf, .txt}`; for the
three supported extensions it routes to a handler and raises no such
error. -/
theorem extract_text_unsupported_error (p : List Nat) :
    (∃ m, extract_text p = Except.error m) ↔ lowerN (splitextExt p) ∉ supportedExts :=
  extract_text_error_iff p

/-- C10: confirmed.  The extension is lowercased before comparison:
routing depends only on the lowercase form of the extension, the
uppercase-variant paths are accepted and routed exactly as their
lowercase counterparts, and the unsupported-file-type error occurs only
when the lowercase form is outside `{.docx, .pdf, .txt}`. -/
theorem extract_text_case_insensitive :
    (∀ p q : List Nat, lowerN (splitextExt p) = lowerN (splitextExt q) →
        extract_text p = extract_text q)
    ∧ extract_text (str2l "cv.DOCX") = Except.ok FileKind.docx
    ∧ extract_text (str2l "cv.Pdf") = Except.ok FileKind.pdf
    ∧ extract_text (str2l "cv.TXT") = Except.ok FileKind.txt
    ∧ (∀ p m, extract_text p = Except.error m →
        lowerN (splitextExt p) ∉ supportedExts) := by
  refine ⟨?_, rfl, rfl, rfl, ?_⟩
  · intro p q h
    simp only [extract_text]
    rw [h]
  · intro p m h
    exact (extract_text_error_iff p).mp ⟨m, h⟩

/-- Witness for C10: a concrete uppercase extension routed as its
lowercase counterpart. -/
theorem extract_text_case_insensitive_w :
    extract_text (str2l "a.DOCX") = extract_text (str2l "a.docx") :=
  extract_text_case_insensitive.1 _ _ (by decide)

/-- C6: the claim is right and the code is wrong.  For every supported
input file the entry point reaches the call
`extract_skills(input, model=skillner, tokenizer=tokenizer)`, but
`extract_skills` is declared as `extract_skills(input, pipeline)`, so
the keyword `model` does not bind and Python raises `TypeError` before
any skill line is printed. -/
theorem run_main_pipeline_type_error (p : List Nat) (k : FileKind)
    (h : extract_text p = Except.ok k) :
    run_main_pipeline p = PipeOutcome.typeErr := by
  unfold run_main_pipeline
  rw [h]
  rfl

/-- Witness for C6 at a concrete supported path. -/
theorem run_main_pipeline_type_error_w :
    run_main_pipeline (str2l "cv.txt") = PipeOutcome.typeErr :=
  run_main_pipeline_type_error _ FileKind.txt rfl

/-- Witness for C8 at a concrete unsupported path. -/
theorem extract_text_unsupported_error_w :
    (∃ m, extract_text (str2l "cv.xml") = Except.error m)
      ↔ lowerN (splitextExt (str2l "cv.xml")) ∉ supportedExts :=
  extract_text_unsupported_error (str2l "cv.xml")

/-! ## Lemmas: label alignment -/

lemma prevAt_cons (prev0 x : Option Nat) (xs : List (Option Nat)) (q : Nat) :
    prevAt prev0 (x :: xs) (q + 1) = prevAt x xs q := by
  cases q with
  | zero => simp [prevAt]
  | succ r => simp [prevAt]

/-- Characterization of the `IndexError` of `tokenize_and_align_labels`:
the loop fails exactly when some position is the first sub-word of a
new word (relative to the running `prev_word_id` state, initial state
`prev`) whose word index is out of the tag list's range. -/
lemma alignLoop_none_iff (tags : List Nat) :
    ∀ (ws : List (Option Nat)) (prev : Option Nat),
      alignLoop tags prev ws = none
        ↔ ∃ p, p < ws.length ∧ ∃ w, ws.getD p none = some w
            ∧ prevAt prev ws p ≠ some w ∧ tags.length ≤ w := by
  intro ws
  induction ws with
  | nil => intro prev; simp [alignLoop]
  | cons w0 rest ih =>
    intro prev
    cases w0 with
    | none =>
      have hL : (alignLoop tags prev (none :: rest) = none)
          ↔ (alignLoop tags none rest = none) := by
        cases hrec : alignLoop tags none rest with
        | none => simp [alignLoop, hrec]
        | some pr => cases pr; simp [alignLoop, hrec]
      rw [hL, ih none]
      constructor
      · rintro ⟨p, hlt, w, hw, hpa, hlen⟩
        refine ⟨p + 1, by simpa using hlt, w, by simpa using hw, ?_, hlen⟩
        rwa [prevAt_cons]
      · rintro ⟨p, hlt, w, hw, hpa, hlen⟩
        cases p with
        | zero => simp at hw
        | succ q =>
          refine ⟨q, by simpa using hlt, w, by simpa using hw, ?_, hlen⟩
          rwa [prevAt_cons] at hpa
    | some wi =>
      by_cases hp : prev = some wi
      · have hL : (alignLoop tags prev (some wi :: rest) = none)
            ↔ (alignLoop tags (some wi) rest = none) := by
          cases hrec : alignLoop tags (some wi) rest with
          | none => simp [alignLoop, hp, hrec]
          | some pr => cases pr; simp [alignLoop, hp, hrec]
        rw [hL, ih (some wi)]
        constructor
        · rintro ⟨p, hlt, w, hw, hpa, hlen⟩
          refine ⟨p + 1, by simpa using hlt, w, by simpa using hw, ?_, hlen⟩
          rwa [prevAt_cons]
        · rintro ⟨p, hlt, w, hw, hpa, hlen⟩
          cases p with
          | zero =>
            simp only [List.getD_cons_zero] at hw
            exact absurd (by simpa [prevAt, hw] using hp) hpa
          | succ q =>
            refine ⟨q, by simpa using hlt, w, by simpa using hw, ?_, hlen⟩
            rwa [prevAt_cons] at hpa
      · cases hg : tags[wi]? with
        | none =>
          have hlenw : tags.length ≤ wi := List.getElem?_eq_none_iff.mp hg
          refine iff_of_true (by simp [alignLoop, hp, hg]) ?_
          refine ⟨0, by simp, wi, by simp, ?_, hlenw⟩
          simpa [prevAt] using hp
        | some t =>
          have hwi : wi < tags.length := by
            by_contra hc
            have : tags[wi]? = none := List.getElem?_eq_none_iff.mpr (by omega)
            simp [this] at hg
          have hL : (alignLoop tags prev (some wi :: rest) = none)
              ↔ (alignLoop tags (some wi) rest = none) := by
            cases hrec : alignLoop tags (some wi) rest with
            | none => simp [alignLoop, hp, hg, hrec]
            | some pr => cases pr; simp [alignLoop, hp, hg, hrec]
          rw [hL, ih (some wi)]
          constructor
          · rintro ⟨p, hlt, w, hw, hpa, hlen⟩
            refine ⟨p + 1, by simpa using hlt, w, by simpa using hw, ?_, hlen⟩
            rwa [prevAt_cons]
          · rintro ⟨p, hlt, w, hw, hpa, hlen⟩
            cases p with
            | zero =>
              simp only [List.getD_cons_zero] at hw
              have : w = wi := by injection hw.symm
              omega
            | succ q =>
              refine ⟨q, by simpa using hlt, w, by simpa using hw, ?_, hlen⟩
              rwa [prevAt_cons] at hpa

/-! ## Claim theorems: C7 -/

/-- C7 counterexample: a concrete Example whose tag list is longer than
its token list (tokens `["a"]`, tags `[1, 2]`), tokenized to the
word-ids map `[None, 0, None]` (every originating word index is a valid
index of the token list): `tokenize_and_align_labels` returns normally
instead of failing, refuting the claim that every length mismatch
fails. -/
theorem tokenize_align_no_error_on_longer_tags :
    ([str2l "a"].length ≠ ([1, 2] : List Nat).length)
    ∧ (∀ x ∈ ([none, some 0, none] : List (Option Nat)),
        x ≠ none → x.getD 0 < [str2l "a"].length)
    ∧ tokenize_and_align_labels [1, 2] [none, some 0, none]
        = some ([0, 1, 0], [0, 1, 0]) :=
  ⟨by decide, by decide, by decide⟩

/-- C7 (amended): the Label Aligner raises (`IndexError`) exactly when
some position of the word-ids map is the first sub-word of a word whose
index is out of the tag list's range — so it fails when the tag list is
too short for the words that survive truncation, but a tag list longer
than the token list is accepted silently. -/
theorem tokenize_align_error_iff (tags : List Nat) (wids : List (Option Nat)) :
    tokenize_and_align_labels tags wids = none
      ↔ ∃ p, p < wids.length ∧ ∃ w, wids.getD p none = some w
          ∧ prevAt none wids p ≠ some w ∧ tags.length ≤ w :=
  alignLoop_none_iff tags wids none

/-- Witness for C7 (amended) at a concrete input: an empty tag list
with word 0 appearing, where the error characterization holds. -/
theorem tokenize_align_error_iff_w :
    tokenize_and_align_labels [] [none, some 0] = none
      ↔ ∃ p, p < ([none, some 0] : List (Option Nat)).length
          ∧ ∃ w, ([none, some 0] : List (Option Nat)).getD p none = some w
              ∧ prevAt none [none, some 0] p ≠ some w
              ∧ ([] : List Nat).length ≤ w :=
  tokenize_align_error_iff [] [none, some 0]

lemma posRule_shift (tags : List Nat) (prev x : Option Nat) (rest : List (Option Nat))
    (a b : Nat) (ls ms : List Nat) (q : Nat)
    (h : posRule tags x rest ls ms q) :
    posRule tags prev (x :: rest) (a :: ls) (b :: ms) (q + 1) := by
  obtain ⟨r1, r2, r3⟩ := h
  refine ⟨?_, ?_, ?_⟩
  · intro h0
    simp only [List.getD_cons_succ] at h0 ⊢
    exact r1 h0
  · intro w hw hpa
    simp only [List.getD_cons_succ] at hw ⊢
    rw [prevAt_cons] at hpa
    exact r2 w hw hpa
  · intro w hw hpa
    simp only [List.getD_cons_succ] at hw ⊢
    rw [prevAt_cons] at hpa
    exact r3 w hw hpa

/-- Success and pointwise behaviour of the aligner loop: when every
originating word index is in the tag list's range, the loop returns two
lists of the input's length satisfying `posRule` at every position. -/
lemma alignLoop_spec (tags : List Nat) :
    ∀ (ws : List (Option Nat)) (prev : Option Nat),
      (∀ x ∈ ws, x ≠ none → x.getD 0 < tags.length) →
      ∃ ls ms, alignLoop tags prev ws = some (ls, ms)
        ∧ ls.length = ws.length ∧ ms.length = ws.length
        ∧ ∀ p, p < ws.length → posRule tags prev ws ls ms p := by
  intro ws
  induction ws with
  | nil =>
    intro prev _
    refine ⟨[], [], rfl, rfl, rfl, ?_⟩
    intro p hp
    simp at hp
  | cons w0 rest ih =>
    intro prev hin
    obtain ⟨ls, ms, hrec, hl, hm, hpt⟩ :=
      ih w0 (fun x hx hne => hin x (List.mem_cons_of_mem _ hx) hne)
    cases w0 with
    | none =>
      refine ⟨0 :: ls, 0 :: ms, by simp [alignLoop, hrec], by simp [hl],
        by simp [hm], ?_⟩
      intro p hp
      cases p with
      | zero =>
        refine ⟨fun _ => ⟨rfl, rfl⟩, ?_, ?_⟩
        · intro w hw _; simp at hw
        · intro w hw _; simp at hw
      | succ q =>
        exact posRule_shift tags prev none rest 0 0 ls ms q (hpt q (by simpa using hp))
    | some wi =>
      by_cases hp : prev = some wi
      · refine ⟨0 :: ls, 0 :: ms, by simp [alignLoop, hp, hrec], by simp [hl],
          by simp [hm], ?_⟩
        intro p hplt
        cases p with
        | zero =>
          refine ⟨?_, ?_, ?_⟩
          · intro h0; simp at h0
          · intro w _ _; exact ⟨rfl, rfl⟩
          · intro w hw hpa
            exfalso
            apply hpa
            simp only [List.getD_cons_zero] at hw
            simpa [prevAt, hw] using hp
        | succ q =>
          exact posRule_shift tags prev (some wi) rest 0 0 ls ms q
            (hpt q (by simpa using hplt))
      · have hwi : wi < tags.length := by
          simpa using hin (some wi) (List.mem_cons_self _ _) (by simp)
        have hg : tags[wi]? = some (tags.getD wi 0) := by
          rw [List.getElem?_eq_getElem hwi, List.getD_eq_getElem tags 0 hwi]
        refine ⟨tags.getD wi 0 :: ls, 1 :: ms,
          by simp only [alignLoop, if_neg hp, hg, hrec], by simp [hl], by simp [hm], ?_⟩
        intro p hplt
        cases p with
        | zero =>
          refine ⟨?_, ?_, ?_⟩
          · intro h0; simp at h0
          · intro w hw hpa
            exfalso
            simp only [List.getD_cons_zero] at hw
            apply hp
            have hwiw : wi = w := by injection hw
            subst hwiw
            simpa [prevAt] using hpa
          · intro w hw _
            simp only [List.getD_cons_zero] at hw
            have hwiw : wi = w := by injection hw
            subst hwiw
            exact ⟨rfl, rfl⟩
        | succ q =>
          exact posRule_shift tags prev (some wi) rest (tags.getD wi 0) 1 ls ms q
            (hpt q (by simpa using hplt))

lemma firstIdx_spec (w : Nat) :
    ∀ (l : List (Option Nat)), some w ∈ l →
      firstIdx w l < l.length ∧ l.getD (firstIdx w l) none = some w
        ∧ ∀ q, q < firstIdx w l → l.getD q none ≠ some w := by
  intro l
  induction l with
  | nil => intro h; simp at h
  | cons x xs ih =>
    intro hmem
    by_cases hx : x = some w
    · refine ⟨by simp only [firstIdx, if_pos hx]; simp,
        by simp only [firstIdx, if_pos hx, List.getD_cons_zero]; exact hx, ?_⟩
      intro q hq
      simp only [firstIdx, if_pos hx] at hq
      omega
    · have hmem' : some w ∈ xs := by
        rcases List.mem_cons.mp hmem with h | h
        · exact absurd h.symm hx
        · exact h
      obtain ⟨ih1, ih2, ih3⟩ := ih hmem'
      refine ⟨?_, ?_, ?_⟩
      · simp only [firstIdx, if_neg hx, List.length_cons]; omega
      · simp only [firstIdx, if_neg hx, List.getD_cons_succ]; exact ih2
      · intro q hq
        simp only [firstIdx, if_neg hx] at hq
        cases q with
        | zero => simpa using hx
        | succ r =>
          simp only [List.getD_cons_succ]
          exact ih3 r (by omega)

lemma filter_range_beq (a N : Nat) (h : a < N) :
    (List.range N).filter (fun p => p == a) = [a] := by
  induction N with
  | zero => omega
  | succ n ih =>
    rw [List.range_succ, List.filter_append]
    by_cases hc : a < n
    · have hne : (n == a) = false := by
        simpa using (by omega : n ≠ a)
      rw [ih hc]
      simp [List.filter, hne]
    · have ha : a = n := by omega
      subst ha
      have h1 : (List.range a).filter (fun p => p == a) = [] := by
        rw [List.filter_eq_nil_iff]
        intro x hx
        have : x < a := List.mem_range.mp hx
        simpa using (by omega : x ≠ a)
      rw [h1]
      simp [List.filter]

/-- Every position with mask 0 in the loop's output carries label 0:
the two zero-emitting branches write the pair `(0, 0)` and the only
mask-1 branch writes mask 1. -/
lemma alignLoop_mask0 (tags : List Nat) :
    ∀ (ws : List (Option Nat)) (prev : Option Nat) (ls ms : List Nat),
      alignLoop tags prev ws = some (ls, ms) →
      ∀ x ∈ ls.zip ms, x.2 = 0 → x.1 = 0 := by
  intro ws
  induction ws with
  | nil =>
    intro prev ls ms h
    simp only [alignLoop, Option.some.injEq, Prod.mk.injEq] at h
    rcases h with ⟨rfl, rfl⟩
    simp
  | cons w0 rest ih =>
    intro prev ls ms h
    cases w0 with
    | none =>
      cases hrec : alignLoop tags none rest with
      | none => simp [alignLoop, hrec] at h
      | some pr =>
        obtain ⟨ls', ms'⟩ := pr
        simp only [alignLoop, hrec, Option.some.injEq, Prod.mk.injEq] at h
        rcases h with ⟨rfl, rfl⟩
        intro x hx hx2
        rcases List.mem_cons.mp hx with hx1 | hx1
        · rw [hx1]
        · exact ih none ls' ms' hrec x hx1 hx2
    | some wi =>
      by_cases hp : prev = some wi
      · cases hrec : alignLoop tags (some wi) rest with
        | none => simp [alignLoop, hp, hrec] at h
        | some pr =>
          obtain ⟨ls', ms'⟩ := pr
          simp only [alignLoop, hp, if_pos, hrec, Option.some.injEq, Prod.mk.injEq] at h
          rcases h with ⟨rfl, rfl⟩
          intro x hx hx2
          rcases List.mem_cons.mp hx with hx1 | hx1
          · rw [hx1]
          · exact ih (some wi) ls' ms' hrec x hx1 hx2
      · cases hg : tags[wi]? with
        | none => simp [alignLoop, hp, hg] at h
        | some t =>
          cases hrec : alignLoop tags (some wi) rest with
          | none => simp [alignLoop, hp, hg, hrec] at h
          | some pr =>
            obtain ⟨ls', ms'⟩ := pr
            simp only [alignLoop, hp, hg, hrec, Option.some.injEq, Prod.mk.injEq,
              if_neg] at h
            rcases h with ⟨rfl, rfl⟩
            intro x hx hx2
            rcases List.mem_cons.mp hx with hx1 | hx1
            · rw [hx1] at hx2
              simp at hx2
            · exact ih (some wi) ls' ms' hrec x hx1 hx2

/-! ## Claim theorems: C1 and C2 -/

/-- C1: confirmed.  For a word-ids map whose indices are in the tag
list's range (`hin`, the Example's length invariant made explicit after
truncation) and in which each word's sub-word positions are contiguous
(`hcontig`, the tokenizer's word-ids shape), the aligner succeeds in a
single in-order pass, obeys the three per-position rules (`posRule`:
special token → label 0 / mask 0; first sub-word of a new word → true
tag / mask 1; continuation → label 0 / mask 0), and every word that
survives truncation has exactly one mask-1 position, namely its first
sub-word. -/
theorem tokenize_align_spec (tags : List Nat) (wids : List (Option Nat))
    (hin : ∀ x ∈ wids, x ≠ none → x.getD 0 < tags.length)
    (hcontig : ∀ r, r < wids.length → ∀ q, q ≤ r → ∀ p, p ≤ q →
      wids.getD p none ≠ none → wids.getD p none = wids.getD r none →
      wids.getD q none = wids.getD r none) :
    ∃ ls ms, tokenize_and_align_labels tags wids = some (ls, ms)
      ∧ ls.length = wids.length ∧ ms.length = wids.length
      ∧ (∀ p, p < wids.length → posRule tags none wids ls ms p)
      ∧ ∀ w, some w ∈ wids →
          wids.getD (firstIdx w wids) none = some w
          ∧ ms.getD (firstIdx w wids) 0 = 1
          ∧ ((List.range wids.length).filter
              (fun p => decide (wids.getD p none = some w)
                && decide (ms.getD p 0 = 1))).length = 1 := by
  obtain ⟨ls, ms, h1, h2, h3, h4⟩ := alignLoop_spec tags wids none hin
  refine ⟨ls, ms, h1, h2, h3, h4, ?_⟩
  intro w hw
  obtain ⟨ha1, ha2, ha3⟩ := firstIdx_spec w wids hw
  have hprevA : prevAt none wids (firstIdx w wids) ≠ some w := by
    by_cases h0 : firstIdx w wids = 0
    · simp [prevAt, h0]
    · have hlt : firstIdx w wids - 1 < firstIdx w wids := by omega
      have hne := ha3 (firstIdx w wids - 1) hlt
      simpa [prevAt, h0] using hne
  have hmsa : ms.getD (firstIdx w wids) 0 = 1 :=
    ((h4 (firstIdx w wids) ha1).2.2 w ha2 hprevA).2
  have hiff : ∀ p, p < wids.length →
      ((wids.getD p none = some w ∧ ms.getD p 0 = 1) ↔ p = firstIdx w wids) := by
    intro p hpN
    constructor
    · rintro ⟨hwp, hmp⟩
      have hprev : prevAt none wids p ≠ some w := by
        intro hcontra
        have := ((h4 p hpN).2.1 w hwp hcontra).2
        omega
      by_contra hne
      have hap : firstIdx w wids ≤ p := by
        by_contra hltc
        exact ha3 p (by omega) hwp
      have halt : firstIdx w wids < p := by omega
      have hstep := hcontig p hpN (p - 1) (by omega) (firstIdx w wids) (by omega)
        (by rw [ha2]; simp) (by rw [ha2, hwp])
      apply hprev
      have hp0 : p ≠ 0 := by omega
      rw [hwp] at hstep
      simpa [prevAt, hp0] using hstep
    · rintro rfl
      exact ⟨ha2, hmsa⟩
  refine ⟨ha2, hmsa, ?_⟩
  have hcong : (List.range wids.length).filter
      (fun p => decide (wids.getD p none = some w) && decide (ms.getD p 0 = 1))
      = (List.range wids.length).filter (fun p => p == firstIdx w wids) := by
    apply List.filter_congr
    intro x hx
    have hxN := List.mem_range.mp hx
    rw [Bool.eq_iff_iff]
    simp only [Bool.and_eq_true, decide_eq_true_eq, beq_iff_eq]
    exact hiff x hxN
  rw [hcong, filter_range_beq (firstIdx w wids) wids.length ha1]
  rfl

/-- Witness for C1 at the spec's scenario: three words, the second
split into two sub-words, start/end special tokens. -/
theorem tokenize_align_spec_w :
    (∀ x ∈ ([none, some 0, some 1, some 1, some 2, none] : List (Option Nat)),
        x ≠ none → x.getD 0 < ([1, 2, 0] : List Nat).length)
    ∧ ∃ ls ms,
        tokenize_and_align_labels [1, 2, 0]
            [none, some 0, some 1, some 1, some 2, none] = some (ls, ms)
        ∧ ls.length = ([none, some 0, some 1, some 1, some 2, none] : List (Option Nat)).length
        ∧ ms.length = ([none, some 0, some 1, some 1, some 2, none] : List (Option Nat)).length
        ∧ (∀ p, p < ([none, some 0, some 1, some 1, some 2, none] : List (Option Nat)).length →
            posRule [1, 2, 0] none [none, some 0, some 1, some 1, some 2, none] ls ms p)
        ∧ ∀ w, some w ∈ ([none, some 0, some 1, some 1, some 2, none] : List (Option Nat)) →
            ([none, some 0, some 1, some 1, some 2, none] : List (Option Nat)).getD
                (firstIdx w [none, some 0, some 1, some 1, some 2, none]) none = some w
            ∧ ms.getD (firstIdx w [none, some 0, some 1, some 1, some 2, none]) 0 = 1
            ∧ ((List.range ([none, some 0, some 1, some 1, some 2, none] : List (Option Nat)).length).filter
                (fun p => decide (([none, some 0, some 1, some 1, some 2, none] : List (Option Nat)).getD p none = some w)
                  && decide (ms.getD p 0 = 1))).length = 1 :=
  ⟨by decide,
    tokenize_align_spec [1, 2, 0] [none, some 0, some 1, some 1, some 2, none]
      (by decide) (by decide)⟩

/-- C2: confirmed.  Whenever the aligner returns, every position whose
loss-mask bit is 0 carries label id 0. -/
theorem mask_zero_implies_label_zero (tags : List Nat) (wids : List (Option Nat))
    (ls ms : List Nat) (h : tokenize_and_align_labels tags wids = some (ls, ms)) :
    ∀ x ∈ ls.zip ms, x.2 = 0 → x.1 = 0 :=
  alignLoop_mask0 tags wids none ls ms h

/-- Witness for C2 at the spec's scenario. -/
theorem mask_zero_implies_label_zero_w :
    tokenize_and_align_labels [1, 2, 0] [none, some 0, some 1, some 1, some 2, none]
        = some ([0, 1, 2, 0, 0, 0], [0, 1, 1, 0, 1, 0])
    ∧ ∀ x ∈ (([0, 1, 2, 0, 0, 0] : List Nat).zip ([0, 1, 1, 0, 1, 0] : List Nat)),
        x.2 = 0 → x.1 = 0 :=
  ⟨by decide,
    mask_zero_implies_label_zero [1, 2, 0] [none, some 0, some 1, some 1, some 2, none]
      [0, 1, 2, 0, 0, 0] [0, 1, 1, 0, 1, 0] (by decide)⟩

/-! ## Lemmas: batch dataset builder -/

lemma chunksF_nil {α : Type} (fuel B : Nat) : chunksF (α := α) fuel B [] = [] := by
  cases fuel <;> rfl

lemma chunksF_join {α : Type} :
    ∀ (fuel B : Nat) (l : List α), l.length ≤ fuel → 1 ≤ B →
      (chunksF fuel B l).flatten = l := by
  intro fuel
  induction fuel with
  | zero =>
    intro B l hl _
    have : l = [] := List.eq_nil_of_length_eq_zero (by omega)
    subst this
    rfl
  | succ n ih =>
    intro B l hl hB
    cases l with
    | nil => rfl
    | cons x xs =>
      show ((x :: xs).take B :: chunksF n B ((x :: xs).drop B)).flatten = x :: xs
      rw [List.flatten_cons,
        ih B _ (by rw [List.length_drop]; simp only [List.length_cons] at hl ⊢; omega) hB]
      exact List.take_append_drop B (x :: xs)

lemma chunksF_length {α : Type} :
    ∀ (fuel B : Nat) (l : List α), l.length ≤ fuel → 1 ≤ B →
      (chunksF fuel B l).length = (l.length + B - 1) / B := by
  intro fuel
  induction fuel with
  | zero =>
    intro B l hl hB
    have : l = [] := List.eq_nil_of_length_eq_zero (by omega)
    subst this
    show (0 : Nat) = (0 + B - 1) / B
    rw [Nat.div_eq_of_lt (by omega)]
  | succ n ih =>
    intro B l hl hB
    cases l with
    | nil =>
      show (0 : Nat) = (0 + B - 1) / B
      rw [Nat.div_eq_of_lt (by omega)]
    | cons x xs =>
      show ((x :: xs).take B :: chunksF n B ((x :: xs).drop B)).length
        = ((x :: xs).length + B - 1) / B
      rw [List.length_cons,
        ih B _ (by rw [List.length_drop]; simp only [List.length_cons] at hl ⊢; omega) hB,
        List.length_drop]
      have hm1 : 1 ≤ (x :: xs).length := by simp
      by_cases hmb : (x :: xs).length ≤ B
      · have h1 : (x :: xs).length - B + B - 1 = B - 1 := by omega
        have h2 : ((x :: xs).length + B - 1) / B = 1 :=
          Nat.div_eq_of_lt_le (by omega) (by omega)
        rw [h1, Nat.div_eq_of_lt (by omega), h2]
      · have h1 : (x :: xs).length - B + B - 1 = (x :: xs).length - 1 := by omega
        have h2 : (x :: xs).length + B - 1 = ((x :: xs).length - 1) + B := by omega
        rw [h1, h2, Nat.add_div_right _ (by omega : 0 < B)]

lemma chunksF_sizes {α : Type} :
    ∀ (fuel B : Nat) (l : List α) (k : Nat), l.length ≤ fuel → 1 ≤ B →
      k + 1 < (chunksF fuel B l).length → ((chunksF fuel B l).getD k []).length = B := by
  intro fuel
  induction fuel with
  | zero =>
    intro B l k hl _ hk
    have : l = [] := List.eq_nil_of_length_eq_zero (by omega)
    subst this
    simp [chunksF] at hk
  | succ n ih =>
    intro B l k hl hB hk
    cases l with
    | nil => simp [chunksF] at hk
    | cons x xs =>
      have hstep : chunksF (n + 1) B (x :: xs)
          = (x :: xs).take B :: chunksF n B ((x :: xs).drop B) := rfl
      rw [hstep] at hk ⊢
      have hd : ((x :: xs).drop B).length ≤ n := by
        rw [List.length_drop]
        simp only [List.length_cons] at hl ⊢
        omega
      cases k with
      | zero =>
        have hbm : B ≤ (x :: xs).length := by
          by_contra hc
          rw [List.drop_eq_nil_of_le (by omega), chunksF_nil] at hk
          simp at hk
        simp only [List.getD_cons_zero, List.length_take]
        omega
      | succ j =>
        simp only [List.getD_cons_succ]
        exact ih B _ j hd hB (by simpa using hk)

lemma length_le_maxLenBy (f : Enc → List Nat) :
    ∀ (chunk : List Enc) (e : Enc), e ∈ chunk → (f e).length ≤ maxLenBy f chunk := by
  intro chunk
  induction chunk with
  | nil => intro e he; simp at he
  | cons c cs ih =>
    intro e he
    rcases List.mem_cons.mp he with rfl | hm
    · simp only [maxLenBy, List.map_cons, List.foldr_cons]
      exact Nat.le_max_left _ _
    · refine le_trans (ih e hm) ?_
      simp only [maxLenBy, List.map_cons, List.foldr_cons]
      exact Nat.le_max_right _ _

lemma maxLenBy_congr (f g : Enc → List Nat) :
    ∀ (chunk : List Enc), (∀ e ∈ chunk, (f e).length = (g e).length) →
      maxLenBy f chunk = maxLenBy g chunk := by
  intro chunk
  induction chunk with
  | nil => intro _; rfl
  | cons c cs ih =>
    intro h
    have htail := ih (fun e he => h e (List.mem_cons_of_mem _ he))
    simp only [maxLenBy, List.map_cons, List.foldr_cons] at htail ⊢
    rw [h c (List.mem_cons_self _ _), htail]

lemma padTo_length (L : Nat) (l : List Nat) (h : l.length ≤ L) :
    (padTo L l).length = L := by
  simp [padTo]
  omega

lemma padTo_getD_lt (L : Nat) (l : List Nat) (j d : Nat) (h : j < l.length) :
    (padTo L l).getD j d = l.getD j d := by
  unfold padTo
  rw [List.getD_append _ _ _ _ h]

lemma getD_replicate_zero : ∀ (m i d : Nat), i < m → (List.replicate m (0 : Nat)).getD i d = 0 := by
  intro m
  induction m with
  | zero => intro i d h; omega
  | succ n ih =>
    intro i d h
    cases i with
    | zero => simp [List.replicate_succ]
    | succ j =>
      simp only [List.replicate_succ, List.getD_cons_succ]
      exact ih j d (by omega)

lemma padTo_getD_ge (L : Nat) (l : List Nat) (j d : Nat) (h1 : l.length ≤ j) (h2 : j < L) :
    (padTo L l).getD j d = 0 := by
  unfold padTo
  rw [List.getD_append_right _ _ _ _ h1]
  exact getD_replicate_zero _ _ _ (by omega)

lemma getD_map_lt {α β : Type} (f : α → β) (da : α) (db : β) :
    ∀ (l : List α) (i : Nat), i < l.length → (l.map f).getD i db = f (l.getD i da) := by
  intro l
  induction l with
  | nil => intro i h; simp at h
  | cons c cs ih =>
    intro i h
    cases i with
    | zero => rfl
    | succ j =>
      simp only [List.map_cons, List.getD_cons_succ]
      exact ih j (by simpa using h)

lemma getD_mem {α : Type} (l : List α) (n : Nat) (d : α) (h : n < l.length) :
    l.getD n d ∈ l := by
  rw [List.getD_eq_getElem l d h]
  exact List.getElem_mem h

lemma padTo_paddedOk (L : Nat) (l : List Nat) (h : l.length ≤ L) :
    paddedOk L l (padTo L l) :=
  ⟨padTo_length L l h, fun j d hj => padTo_getD_lt L l j d hj,
    fun j d h1 h2 => padTo_getD_ge L l j d h1 h2⟩

/-! ## Claim theorems: C5 -/

/-- C5: confirmed.  For encodings whose four sequences have equal
per-example lengths and a positive batch size, `make_dataset` produces
`⌈N / B⌉` batches in input order, every batch but possibly the last
with exactly `B` examples; within each batch all four sequences are
padded to the batch's maximum length, and every padded position holds
the zero padding value (input-id 0, attention 0, label 0, loss-mask
0.0). -/
theorem make_dataset_spec (encs : List Enc) (B : Nat) (hB : 1 ≤ B)
    (hlen : ∀ e ∈ encs, e.attention_mask.length = e.input_ids.length
      ∧ e.labels.length = e.input_ids.length
      ∧ e.label_mask.length = e.input_ids.length) :
    makeDatasetSpec encs B := by
  have hjoin : (chunks B encs).flatten = encs :=
    chunksF_join encs.length B encs le_rfl hB
  have hml : (make_dataset encs B).length = (chunks B encs).length := by
    simp [make_dataset]
  refine ⟨hjoin, ?_, ?_, ?_⟩
  · rw [hml]
    exact chunksF_length encs.length B encs le_rfl hB
  · intro k hk
    rw [hml] at hk
    have hkc : k < (chunks B encs).length := by omega
    have hbatch : (make_dataset encs B).getD k emptyBatch
        = padBatch ((chunks B encs).getD k []) :=
      getD_map_lt padBatch [] emptyBatch _ k hkc
    rw [hbatch]
    simp only [padBatch, List.length_map]
    exact chunksF_sizes encs.length B encs k le_rfl hB hk
  · intro k hk i hi
    rw [hml] at hk
    have hbatch : (make_dataset encs B).getD k emptyBatch
        = padBatch ((chunks B encs).getD k []) :=
      getD_map_lt padBatch [] emptyBatch _ k hk
    have hmemchunk : (chunks B encs).getD k [] ∈ chunks B encs :=
      getD_mem _ k [] hk
    have hsub : ∀ e ∈ (chunks B encs).getD k [], e ∈ encs := by
      intro e he
      rw [← hjoin]
      exact List.mem_flatten.mpr ⟨_, hmemchunk, he⟩
    have hlenc := fun e he => hlen e (hsub e he)
    have hmax_am : maxLenBy Enc.attention_mask ((chunks B encs).getD k [])
        = maxLenBy Enc.input_ids ((chunks B encs).getD k []) :=
      maxLenBy_congr _ _ _ (fun e he => (hlenc e he).1)
    have hmax_lb : maxLenBy Enc.labels ((chunks B encs).getD k [])
        = maxLenBy Enc.input_ids ((chunks B encs).getD k []) :=
      maxLenBy_congr _ _ _ (fun e he => (hlenc e he).2.1)
    have hmax_lm : maxLenBy Enc.label_mask ((chunks B encs).getD k [])
        = maxLenBy Enc.input_ids ((chunks B encs).getD k []) :=
      maxLenBy_congr _ _ _ (fun e he => (hlenc e he).2.2)
    have hei : ((chunks B encs).getD k []).getD i emptyEnc ∈ (chunks B encs).getD k [] :=
      getD_mem _ i emptyEnc hi
    have heilen := hlenc _ hei
    have hle_in : (((chunks B encs).getD k []).getD i emptyEnc).input_ids.length
        ≤ maxLenBy Enc.input_ids ((chunks B encs).getD k []) :=
      length_le_maxLenBy Enc.input_ids _ _ hei
    rw [hbatch]
    refine ⟨?_, ?_, ?_, ?_⟩
    · have hrow : (padBatch ((chunks B encs).getD k [])).input_ids.getD i []
          = padTo (maxLenBy Enc.input_ids ((chunks B encs).getD k []))
              (((chunks B encs).getD k []).getD i emptyEnc).input_ids :=
        getD_map_lt _ emptyEnc [] _ i hi
      rw [hrow]
      exact padTo_paddedOk _ _ hle_in
    · have hrow : (padBatch ((chunks B encs).getD k [])).attention_mask.getD i []
          = padTo (maxLenBy Enc.attention_mask ((chunks B encs).getD k []))
              (((chunks B encs).getD k []).getD i emptyEnc).attention_mask :=
        getD_map_lt _ emptyEnc [] _ i hi
      rw [hrow, hmax_am]
      exact padTo_paddedOk _ _ (by rw [heilen.1]; exact hle_in)
    · have hrow : (padBatch ((chunks B encs).getD k [])).labels.getD i []
          = padTo (maxLenBy Enc.labels ((chunks B encs).getD k []))
              (((chunks B encs).getD k []).getD i emptyEnc).labels :=
        getD_map_lt _ emptyEnc [] _ i hi
      rw [hrow, hmax_lb]
      exact padTo_paddedOk _ _ (by rw [heilen.2.1]; exact hle_in)
    · have hrow : (padBatch ((chunks B encs).getD k [])).label_mask.getD i []
          = padTo (maxLenBy Enc.label_mask ((chunks B encs).getD k []))
              (((chunks B encs).getD k []).getD i emptyEnc).label_mask :=
        getD_map_lt _ emptyEnc [] _ i hi
      rw [hrow, hmax_lm]
      exact padTo_paddedOk _ _ (by rw [heilen.2.2]; exact hle_in)

/-- Witness for C5: three encodings, batch size 2 (so two batches, the
first full, the second the remainder). -/
theorem make_dataset_spec_w :
    (1 ≤ 2)
    ∧ (∀ e ∈ ([⟨[5, 6], [1, 1], [0, 1], [0, 1]⟩,
          ⟨[7, 8, 9], [1, 1, 1], [1, 0, 2], [1, 0, 1]⟩,
          ⟨[4], [1], [2], [1]⟩] : List Enc),
        e.attention_mask.length = e.input_ids.length
        ∧ e.labels.length = e.input_ids.length
        ∧ e.label_mask.length = e.input_ids.length)
    ∧ makeDatasetSpec
        [⟨[5, 6], [1, 1], [0, 1], [0, 1]⟩,
         ⟨[7, 8, 9], [1, 1, 1], [1, 0, 2], [1, 0, 1]⟩,
         ⟨[4], [1], [2], [1]⟩] 2 :=
  ⟨by decide, by decide,
    make_dataset_spec _ 2 (by decide) (by decide)⟩

/-! ## Lemmas: text cleaning -/

lemma mem_lowerN (l : List Nat) : ∀ c ∈ lowerN l, ¬(65 ≤ c ∧ c ≤ 90) := by
  intro c hc
  obtain ⟨x, _, rfl⟩ := List.mem_map.mp hc
  unfold lowerChar
  split_ifs with h
  · omega
  · omega

lemma mem_collapseNLAux : ∀ (b : Bool) (l : List Nat) (c : Nat),
    c ∈ collapseNLAux b l → c ∈ l ∨ c = 10 := by
  intro b l
  induction l generalizing b with
  | nil => intro c hc; simp [collapseNLAux] at hc
  | cons x xs ih =>
    intro c hc
    simp only [collapseNLAux] at hc
    split_ifs at hc with h1 h2
    · rcases ih true c hc with h | h
      · exact Or.inl (List.mem_cons_of_mem _ h)
      · exact Or.inr h
    · rcases List.mem_cons.mp hc with h | h
      · exact Or.inr h
      · rcases ih true c h with h3 | h3
        · exact Or.inl (List.mem_cons_of_mem _ h3)
        · exact Or.inr h3
    · rcases List.mem_cons.mp hc with h | h
      · exact Or.inl (by rw [h]; exact List.mem_cons_self _ _)
      · rcases ih false c h with h3 | h3
        · exact Or.inl (List.mem_cons_of_mem _ h3)
        · exact Or.inr h3

lemma mem_collapseWsAux : ∀ (b : Bool) (l : List Nat) (c : Nat),
    c ∈ collapseWsAux b l → c ∈ l ∨ c = 32 := by
  intro b l
  induction l generalizing b with
  | nil => intro c hc; simp [collapseWsAux] at hc
  | cons x xs ih =>
    intro c hc
    simp only [collapseWsAux] at hc
    split_ifs at hc with h1 h2
    · rcases ih true c hc with h | h
      · exact Or.inl (List.mem_cons_of_mem _ h)
      · exact Or.inr h
    · rcases List.mem_cons.mp hc with h | h
      · exact Or.inr h
      · rcases ih true c h with h3 | h3
        · exact Or.inl (List.mem_cons_of_mem _ h3)
        · exact Or.inr h3
    · rcases List.mem_cons.mp hc with h | h
      · exact Or.inl (by rw [h]; exact List.mem_cons_self _ _)
      · rcases ih false c h with h3 | h3
        · exact Or.inl (List.mem_cons_of_mem _ h3)
        · exact Or.inr h3

lemma mem_dropLit : ∀ (pat l r : List Nat), dropLit pat l = some r → ∀ c ∈ r, c ∈ l := by
  intro pat
  induction pat with
  | nil =>
    intro l r h c hc
    simp only [dropLit, Option.some.injEq] at h
    rwa [h]
  | cons p ps ih =>
    intro l r h c hc
    cases l with
    | nil => simp [dropLit] at h
    | cons x xs =>
      simp only [dropLit] at h
      split_ifs at h with hx
      exact List.mem_cons_of_mem _ (ih xs r h c hc)

lemma mem_dropDigits1 : ∀ (l r : List Nat), dropDigits1 l = some r → ∀ c ∈ r, c ∈ l := by
  intro l r h c hc
  cases l with
  | nil => simp [dropDigits1] at h
  | cons x xs =>
    simp only [dropDigits1] at h
    split_ifs at h with hx
    simp only [Option.some.injEq] at h
    rw [← h] at hc
    exact List.mem_cons_of_mem _
      (List.Sublist.subset (List.dropWhile_sublist _) hc)

lemma mem_matchFooterAt (l r : List Nat) (h : matchFooterAt l = some r) :
    ∀ c ∈ r, c ∈ l := by
  unfold matchFooterAt at h
  cases h1 : dropLit (str2l "page ") l with
  | none => simp [h1] at h
  | some l1 =>
    simp only [h1] at h
    cases h2 : dropDigits1 l1 with
    | none => simp [h2] at h
    | some l2 =>
      simp only [h2] at h
      cases h3 : dropLit (str2l " of ") l2 with
      | none => simp [h3] at h
      | some l3 =>
        simp only [h3] at h
        intro c hc
        exact mem_dropLit _ _ _ h1 c (mem_dropDigits1 _ _ h2 c
          (mem_dropLit _ _ _ h3 c (mem_dropDigits1 _ _ h c hc)))

lemma mem_removeFooterF : ∀ (fuel : Nat) (l : List Nat) (c : Nat),
    c ∈ removeFooterF fuel l → c ∈ l := by
  intro fuel
  induction fuel with
  | zero => intro l c hc; simpa [removeFooterF] using hc
  | succ n ih =>
    intro l c hc
    cases l with
    | nil => simp [removeFooterF] at hc
    | cons x xs =>
      cases hm : matchFooterAt (x :: xs) with
      | some rest =>
        have hstep : removeFooterF (n + 1) (x :: xs) = removeFooterF n rest := by
          simp [removeFooterF, hm]
        rw [hstep] at hc
        exact mem_matchFooterAt _ _ hm c (ih rest c hc)
      | none =>
        have hstep : removeFooterF (n + 1) (x :: xs) = x :: removeFooterF n xs := by
          simp [removeFooterF, hm]
        rw [hstep] at hc
        rcases List.mem_cons.mp hc with h | h
        · rw [h]; exact List.mem_cons_self _ _
        · exact List.mem_cons_of_mem _ (ih xs c h)

lemma mem_removeBullets (l : List Nat) (c : Nat) (hc : c ∈ removeBullets l) :
    c ∈ l ∨ c = 32 := by
  obtain ⟨x, hx, hfx⟩ := List.mem_map.mp hc
  by_cases hb : x ∈ bullets
  · simp only [if_pos hb] at hfx
    exact Or.inr hfx.symm
  · simp only [if_neg hb] at hfx
    rw [← hfx]
    exact Or.inl hx

lemma not_bullet_removeBullets (l : List Nat) (c : Nat) (hc : c ∈ removeBullets l) :
    c ∉ bullets := by
  obtain ⟨x, _, hfx⟩ := List.mem_map.mp hc
  by_cases hb : x ∈ bullets
  · simp only [if_pos hb] at hfx
    rw [← hfx]
    decide
  · simp only [if_neg hb] at hfx
    rwa [← hfx]

lemma mem_dropTrailWs : ∀ (l : List Nat) (c : Nat), c ∈ dropTrailWs l → c ∈ l := by
  intro l
  induction l with
  | nil => intro c hc; simp [dropTrailWs] at hc
  | cons x xs ih =>
    intro c hc
    simp only [dropTrailWs] at hc
    split_ifs at hc with h
    · simp at hc
    · rcases List.mem_cons.mp hc with h1 | h1
      · rw [h1]; exact List.mem_cons_self _ _
      · exact List.mem_cons_of_mem _ (ih c h1)

lemma mem_stripWs (l : List Nat) (c : Nat) (hc : c ∈ stripWs l) : c ∈ l := by
  unfold stripWs at hc
  exact List.Sublist.subset (List.dropWhile_sublist _) (mem_dropTrailWs _ _ hc)

lemma head?_dropWhile_not (p : Nat → Bool) :
    ∀ (l : List Nat) (c : Nat), (l.dropWhile p).head? = some c → p c = false := by
  intro l
  induction l with
  | nil => intro c hc; simp at hc
  | cons x xs ih =>
    intro c hc
    rw [List.dropWhile_cons] at hc
    split_ifs at hc with h
    · exact ih c hc
    · simp only [List.head?_cons, Option.some.injEq] at hc
      rw [← hc]
      simpa using h

lemma head?_dropTrailWs : ∀ (l : List Nat) (c : Nat),
    (dropTrailWs l).head? = some c → l.head? = some c := by
  intro l
  cases l with
  | nil => intro c hc; simp [dropTrailWs] at hc
  | cons x xs =>
    intro c hc
    simp only [dropTrailWs] at hc
    split_ifs at hc with h
    · simp at hc
    · simpa using hc

lemma getLast?_dropTrailWs_not : ∀ (l : List Nat) (c : Nat),
    (dropTrailWs l).getLast? = some c → isSpaceCh c = false := by
  intro l
  induction l with
  | nil => intro c hc; simp [dropTrailWs] at hc
  | cons x xs ih =>
    intro c hc
    simp only [dropTrailWs] at hc
    split_ifs at hc with h
    · simp at hc
    · by_cases hr : dropTrailWs xs = []
      · rw [hr] at hc
        have hcx : c = x := by
          have : ([x] : List Nat).getLast? = some x := rfl
          rw [this] at hc
          exact (Option.some.injEq _ _ ▸ hc).symm
        rw [hcx]
        simp [hr] at h
        exact h
      · obtain ⟨y, ys, hys⟩ := List.exists_cons_of_ne_nil hr
        rw [hys, List.getLast?_cons_cons] at hc
        exact ih c (by rw [hys]; exact hc)

/-! ## Claim theorems: C9 -/

/-- C9 counterexample: on the input `"a • b page 1•of 2"` the cleaned
output is `"a   b page 1 of 2"`, which contains consecutive whitespace
(the bullet→space substitution runs *after* whitespace collapsing) and
contains the page-number footer `page 1 of 2` (the bullet substitution
creates it *after* footer removal has run), refuting those two
conjuncts of the claim. -/
theorem clean_cv_text_cex :
    clean_cv_text (str2l "a • b page 1•of 2") = str2l "a   b page 1 of 2"
    ∧ hasWsPair (clean_cv_text (str2l "a • b page 1•of 2")) = true
    ∧ containsSeq (str2l "page 1 of 2")
        (clean_cv_text (str2l "a • b page 1•of 2")) = true :=
  ⟨by decide, by decide, by decide⟩

/-- C9 (amended): for every input, `clean_cv_text` returns text that is
entirely lowercase (no ASCII uppercase remains), has no leading or
trailing whitespace, and contains no bullet or long-dash glyph; but
consecutive whitespace and `page N of M` footers can survive, because
footer removal and the bullet-to-space substitution run after
whitespace collapsing. -/
theorem clean_cv_text_spec (l : List Nat) :
    (∀ c ∈ clean_cv_text l, ¬(65 ≤ c ∧ c ≤ 90))
    ∧ (∀ c, (clean_cv_text l).head? = some c → isSpaceCh c = false)
    ∧ (∀ c, (clean_cv_text l).getLast? = some c → isSpaceCh c = false)
    ∧ (∀ c ∈ clean_cv_text l, c ∉ bullets) := by
  refine ⟨?_, ?_, ?_, ?_⟩
  · intro c hc
    have h2 := mem_stripWs _ _ hc
    rcases mem_removeBullets _ _ h2 with h3 | h3
    · unfold removeFooter at h3
      have h4 := mem_removeFooterF _ _ _ h3
      rcases mem_collapseWsAux _ _ _ h4 with h5 | h5
      · rcases mem_collapseNLAux _ _ _ h5 with h6 | h6
        · exact mem_lowerN l c h6
        · omega
      · omega
    · omega
  · intro c hc
    unfold clean_cv_text stripWs at hc
    exact head?_dropWhile_not _ _ c (head?_dropTrailWs _ c hc)
  · intro c hc
    unfold clean_cv_text stripWs at hc
    exact getLast?_dropTrailWs_not _ c hc
  · intro c hc
    exact not_bullet_removeBullets _ c (mem_stripWs _ _ hc)

/-- Witness for C9 (amended) at a concrete input. -/
theorem clean_cv_text_spec_w :
    (∀ c ∈ clean_cv_text (str2l "  A •B  "), ¬(65 ≤ c ∧ c ≤ 90))
    ∧ (∀ c, (clean_cv_text (str2l "  A •B  ")).head? = some c → isSpaceCh c = false)
    ∧ (∀ c, (clean_cv_text (str2l "  A •B  ")).getLast? = some c → isSpaceCh c = false)
    ∧ (∀ c ∈ clean_cv_text (str2l "  A •B  "), c ∉ bullets) :=
  clean_cv_text_spec (str2l "  A •B  ")

end Jobify
